import Mathlib

/-!
Verification development for the HackRx document-query service
(`app/rate_limiter.py`, `app/api_manager.py`, `app/document_processor.py`,
`app/llm_handler.py`, `app/main.py`).

Shallow embedding conventions:
* Python `time.time()` floats are modelled as integers (`Int`); only
  the comparisons against the 60/61-second offsets matter.
* Mutable objects become explicit state records threaded through the
  functions that mutate them.
* `asyncio.sleep` is modelled by passing the wake-up time explicitly and
  constraining it by a hypothesis (`sleep(d)` suspends for at least `d`).
-/

/- ### Rate limiter state (src/app/rate_limiter.py, class MultiKeyRateLimiter)

Fields mirror `__init__`: `api_keys`, `max_rpm` (default 25),
`key_request_times` (one timestamp list per key index) and the
round-robin cursor `current_key_index`.  `key_count` is `len(api_keys)`. -/
structure RL where
  apiKeys : List String
  maxRpm : Nat
  keyRequestTimes : List (List Int)
  currentKeyIndex : Nat
deriving Repr, DecidableEq

def RL.keyCount (rl : RL) : Nat := rl.apiKeys.length

/-- Timestamp list recorded for key `i` (Python `self.key_request_times[key_index]`). -/
def rlTimes (rl : RL) (i : Nat) : List Int := rl.keyRequestTimes.getD i []

/-- Purge of entries older than 60 seconds:
`[t for t in times if t > cutoff_time]` with `cutoff_time = now - 60`. -/
def purgeOld (now : Int) (ts : List Int) : List Int :=
  ts.filter (fun t => now - 60 < t)

/-- Number of recorded timestamps lying within the trailing 60 seconds at time `t`. -/
def wcount (t : Int) (ts : List Int) : Nat := (purgeOld t ts).length

/-- Python `min(list)` for a nonempty list (head + foldl). -/
def listMin (l : List Int) : Int :=
  match l with
  | [] => 0
  | t :: ts => ts.foldl min t

/-- The `while attempts < max_attempts` loop of `get_next_available_key`
(rate_limiter.py lines 31-60).  Each iteration samples `time.time()` once;
the samples are supplied as the list `times` whose length is the attempt
budget (`max_attempts = 2 * key_count` at the call site).  On each attempt
the cursor key is taken, the cursor advances immediately, the key's window
is purged and stored back, and the key is selected (recording `now`) when
the purged window is below `max_rpm`.  Returns the selected (index, now)
and the final limiter state; `none` when the budget is exhausted. -/
def tryAttempts : List Int → RL → Option (Nat × Int) × RL
  | [], rl => (none, rl)
  | now :: rest, rl =>
    let k := rl.currentKeyIndex
    let rl1 : RL := { rl with currentKeyIndex := (k + 1) % rl.keyCount }
    let purged := purgeOld now (rlTimes rl1 k)
    let rl2 : RL := { rl1 with keyRequestTimes := rl1.keyRequestTimes.set k purged }
    if purged.length < rl2.maxRpm then
      (some (k, now),
       { rl2 with keyRequestTimes := rl2.keyRequestTimes.set k (purged ++ [now]) })
    else
      tryAttempts rest rl2

/-- The best-key scan of `_wait_for_best_key` (rate_limiter.py lines 67-77):
iterate `key_index in range(key_count)`, and for each nonempty timestamp
list compute `wait_time = 61 - (now - min(times))`, keeping the first
strictly-smaller wait.  The accumulator starts at `(0, float +inf)`;
`none` stands for the initial infinity. -/
def bestStep (rl : RL) (now : Int) (acc : Nat × Option Int) (i : Nat) : Nat × Option Int :=
  match rlTimes rl i with
  | [] => acc
  | t :: ts =>
    let waitTime := 61 - (now - listMin (t :: ts))
    match acc.2 with
    | none => (i, some waitTime)
    | some bw => if waitTime < bw then (i, some waitTime) else acc

def findBestKey (rl : RL) (now : Int) : Nat × Option Int :=
  (List.range rl.keyCount).foldl (bestStep rl now) (0, none)

/-- Fallback `_wait_for_best_key` (rate_limiter.py lines 65-86): pick the
soonest-available key, sleep `best_wait_time` when positive, then append a
fresh `time.time()` sample and return the key.  The post-sleep clock sample
is the explicit parameter `tAppend` (constrained by hypotheses at use
sites: the sleep suspends for at least `best_wait_time`). -/
def waitForBestKey (rl : RL) (now tAppend : Int) : Nat × Int × RL :=
  let b := (findBestKey rl now).1
  (b, tAppend,
   { rl with keyRequestTimes := rl.keyRequestTimes.set b (rlTimes rl b ++ [tAppend]) })

/-- `get_next_available_key` (rate_limiter.py lines 25-63): run the
round-robin attempt loop; if every attempt finds a saturated window, fall
back to `_wait_for_best_key`.  Returns (selected key index, timestamp
recorded for it, final limiter state). -/
def get_next_available_key (rl : RL) (loopTimes : List Int) (fallbackNow tAppend : Int) :
    Nat × Int × RL :=
  match tryAttempts loopTimes rl with
  | (some (k, now), rl') => (k, now, rl')
  | (none, rl') => waitForBestKey rl' fallbackNow tAppend

/-- Repeated calls to `get_next_available_key`; each call is given its own
loop time samples and fallback parameters.  Returns the selected key
indices in call order together with the final state. -/
def callRepeatedly : RL → List (List Int × Int × Int) → List Nat × RL
  | rl, [] => ([], rl)
  | rl, p :: rest =>
    let r := get_next_available_key rl p.1 p.2.1 p.2.2
    let rec' := callRepeatedly r.2.2 rest
    (r.1 :: rec'.1, rec'.2)

/- ### String helpers shared by the embeddings

Python `needle in haystack` substring membership, spelled out on the
character lists. -/
def charsStartWith : List Char → List Char → Bool
  | _, [] => true
  | [], _ :: _ => false
  | c :: cs, d :: ds => c = d && charsStartWith cs ds

def charsContain (hay needle : List Char) : Bool :=
  match hay with
  | [] => needle.isEmpty
  | _ :: t => charsStartWith hay needle || charsContain t needle

def strContains (hay needle : String) : Bool := charsContain hay.data needle.data

/-- Python `str.lower()` (ASCII case folding suffices for the keyword sets used). -/
def lowerStr (s : String) : String := ⟨s.data.map Char.toLower⟩

/-- Python `str.strip()`: drop leading and trailing whitespace. -/
def stripStr (s : String) : String :=
  ⟨((s.data.dropWhile Char.isWhitespace).reverse.dropWhile Char.isWhitespace).reverse⟩

/- ### Credential pool (src/app/api_manager.py, class APIKeyManager)

`key_status[i]` dictionaries become a record; the `last_success`
datetime field is omitted (never read by any selection logic). -/
structure KeyStatus where
  healthy : Bool
  lastError : Option String
  errorCount : Nat
deriving Repr, DecidableEq

instance : Inhabited KeyStatus := ⟨⟨true, none, 0⟩⟩

structure APIKeyManager where
  apiKeys : List String
  keyStatus : List KeyStatus
  keyUsageCount : List Nat
  blockedKeys : Finset Nat
deriving DecidableEq

/-- `APIKeyManager.__init__` for a given credential list (api_manager.py lines 14-29). -/
def initManager (keys : List String) : APIKeyManager :=
  ⟨keys, List.replicate keys.length ⟨true, none, 0⟩, List.replicate keys.length 0, ∅⟩

/-- The blocking test in `mark_key_error` (api_manager.py line 46):
`'organization_restricted' in error.lower() or 'restricted' in error.lower()`. -/
def errorIsRestricted (error : String) : Bool :=
  strContains (lowerStr error) "organization_restricted"
    || strContains (lowerStr error) "restricted"

/-- `mark_key_error` (api_manager.py lines 39-53): increment the error
count, remember the error text, add the key to `blocked_keys` when the
text matches the restriction pattern, and clear `healthy` once the
count reaches 3. -/
def mark_key_error (m : APIKeyManager) (i : Nat) (error : String) : APIKeyManager :=
  if i < m.keyStatus.length then
    let st := m.keyStatus.getD i default
    let st1 : KeyStatus := ⟨st.healthy, some error, st.errorCount + 1⟩
    let blocked := if errorIsRestricted error then insert i m.blockedKeys else m.blockedKeys
    let st2 : KeyStatus := if 3 ≤ st1.errorCount then ⟨false, st1.lastError, st1.errorCount⟩ else st1
    { m with keyStatus := m.keyStatus.set i st2, blockedKeys := blocked }
  else m

/-- `mark_key_success` (api_manager.py lines 55-60): set `healthy = True`
and bump the usage counter.  The error count is left untouched. -/
def mark_key_success (m : APIKeyManager) (i : Nat) : APIKeyManager :=
  if i < m.keyStatus.length then
    let st := m.keyStatus.getD i default
    { m with
      keyStatus := m.keyStatus.set i ⟨true, st.lastError, st.errorCount⟩,
      keyUsageCount := m.keyUsageCount.set i (m.keyUsageCount.getD i 0 + 1) }
  else m

/-- `get_healthy_keys` (api_manager.py lines 31-37): indices that are
neither blocked nor unhealthy, paired with their key strings. -/
def get_healthy_keys (m : APIKeyManager) : List (Nat × String) :=
  ((List.range m.apiKeys.length).filter
      (fun i => decide (i ∉ m.blockedKeys) && (m.keyStatus.getD i default).healthy)).map
    (fun i => (i, m.apiKeys.getD i ""))

/-- `get_best_key` (api_manager.py lines 62-72): stable sort the healthy
keys by usage count ascending and return the first, or `none` when the
healthy set is empty. -/
def get_best_key (m : APIKeyManager) : Option (Nat × String) :=
  ((get_healthy_keys m).mergeSort
      (fun a b => m.keyUsageCount.getD a.1 0 ≤ m.keyUsageCount.getD b.1 0)).head?

/-- Outcome-level events fed to the credential pool: `mark_key_error` /
`mark_key_success` invocations (from health probes or any other caller). -/
inductive MgrOp
  | err (i : Nat) (e : String)
  | succ (i : Nat)
deriving Repr, DecidableEq

def applyOp (m : APIKeyManager) : MgrOp → APIKeyManager
  | .err i e => mark_key_error m i e
  | .succ i => mark_key_success m i

def applyOps (m : APIKeyManager) (ops : List MgrOp) : APIKeyManager :=
  ops.foldl applyOp m

/-- Modelled from the claim wording of C6 (spec section 8, unhealthy
threshold): the number of consecutive failures recorded for key `i` at the
end of an operation sequence, a counter that a success resets to zero.
The source keeps no such counter; this definition exists only to compare
the source behaviour against the claim. -/
def consecutiveFailures (i : Nat) (ops : List MgrOp) : Nat :=
  ops.foldl
    (fun acc op =>
      match op with
      | .err j _ => if j = i then acc + 1 else acc
      | .succ j => if j = i then 0 else acc)
    0

/- ### Document router (src/app/document_processor.py, analyze_document_strategy)

The decision logic of lines 190-330, taken at the level of its input
signals: byte size, page count, the two keyword-hit counts computed from
the sampled text, and the source URL.  `size_mb = file_size / (1024*1024)`
is a float, but `size_mb > 10` and `size_mb > 2` coincide exactly with the
integer comparisons `file_size > 10*1048576` and `file_size > 2*1048576`
(both thresholds and all byte counts below 2^53 divide exactly). -/
inductive Strategy
  | direct_llm
  | rag
deriving Repr, DecidableEq

/-- URL terms of the Check-4 branch (document_processor.py line 292). -/
def generalUrlTerms : List String := ["constitution", "principia", "manual", "textbook"]

/-- Python `url and any(term in url.lower() for term in [...])`. -/
def urlHasGeneralTerm : Option String → Bool
  | none => false
  | some url => generalUrlTerms.any (fun t => strContains (lowerStr url) t)

/-- `analyze_document_strategy` (document_processor.py lines 190-330),
with the sampled keyword scores supplied as inputs.  The inner
`is_general_document` elif-chain is lines 264-311; `direct_llm` is
returned when it ends true, otherwise the function falls through to the
`"rag"` return at line 330. -/
def analyze_document_strategy (fileSize totalPages insuranceScore generalScore : Nat)
    (url : Option String) : Strategy :=
  if 10 * 1048576 < fileSize then .direct_llm
  else if 2 * 1048576 < fileSize then
    let isGeneral : Bool :=
      if 200 < totalPages then
        if 5 ≤ insuranceScore then false else true
      else if 3 ≤ generalScore ∧ insuranceScore < generalScore then true
      else if insuranceScore ≤ 1 ∧ 2 ≤ generalScore then true
      else if urlHasGeneralTerm url then
        if 3 ≤ insuranceScore then false else true
      else if 100 < totalPages ∧ insuranceScore < generalScore ∧ insuranceScore < 3 then true
      else false
    if isGeneral then .direct_llm else .rag
  else .rag

/-- Modelled from the spec words: the first-match precedence table of
spec section 4.3 / claim C3, written rule by rule in the claimed order, to
be compared with `analyze_document_strategy` (which is translated from the
source).  `retrieval` is spelled `rag` and `direct` is `direct_llm` to
share the `Strategy` type. -/
def classifySpecPrecedence (fileSize totalPages domainScore generalScore : Nat)
    (url : Option String) : Strategy :=
  if 10 * 1048576 < fileSize then .direct_llm
  else if 2 * 1048576 < fileSize then
    if 200 < totalPages ∧ 5 ≤ domainScore then .rag
    else if 200 < totalPages then .direct_llm
    else if 3 ≤ generalScore ∧ domainScore < generalScore then .direct_llm
    else if domainScore ≤ 1 ∧ 2 ≤ generalScore then .direct_llm
    else if urlHasGeneralTerm url = true ∧ domainScore < 3 then .direct_llm
    else if 100 < totalPages ∧ domainScore < generalScore ∧ domainScore < 3 then .direct_llm
    else if 5 ≤ domainScore then .rag
    else .rag
  else .rag

/- ### Chunker header/footer analysis (src/app/document_processor.py)

Page texts are strings; `str.splitlines()` is modelled as splitting on
the newline character (the separator produced by the text extraction). -/
def splitChars : List Char → List (List Char)
  | [] => [[]]
  | c :: cs =>
    match splitChars cs with
    | [] => [[]]
    | h :: t => if c = '\n' then [] :: h :: t else (c :: h) :: t

def splitlines (s : String) : List String := (splitChars s.data).map (fun l => ⟨l⟩)

/-- The per-page line set of the first pass (document_processor.py line
108): `{line.strip() for line in page_text.splitlines() if line.strip()}`
(as a list; only membership is ever used). -/
def linesOnPage (pageText : String) : List String :=
  ((splitlines pageText).map stripStr).filter (fun l => !(l == ""))

/-- Value of `repeated_line_counts[line]` after the first pass (lines
97-110): the number of pages whose line set contains `line`. -/
def pagesContaining (pages : List String) (line : String) : Nat :=
  (pages.filter (fun p => decide (line ∈ linesOnPage p))).length

/-- Membership in the `repeated_lines` set (lines 112-115):
`count == total_pages and len(line) > 10`. -/
def isRepeatedLine (pages : List String) (line : String) : Bool :=
  (pagesContaining pages line == pages.length) && decide (10 < line.length)

/-- The header/footer strip of `process_single_page` (lines 45-46):
`[line for line in page_text.splitlines() if line.strip() not in repeated_lines]`. -/
def cleanPageLines (pages : List String) (pageText : String) : List String :=
  (splitlines pageText).filter (fun l => !(isRepeatedLine pages (stripStr l)))

/- ### Answer cache (src/app/main.py) -/

/-- Question normalisation inside `get_cache_key` (main.py line 54):
`question.strip().lower()`. -/
def normalizeQuestion (q : String) : String := lowerStr (stripStr q)

/-- The string that is hashed: `f"{collection_name}:{question.strip().lower()}"`. -/
def cacheKeyInput (question collectionName : String) : String :=
  collectionName ++ ":" ++ normalizeQuestion question

/-- `get_cache_key` (main.py lines 52-55).  `hashlib.md5(...).hexdigest()`
is an external capability, supplied as the function parameter `md5hex`. -/
def get_cache_key (md5hex : String → String) (question collectionName : String) : String :=
  md5hex (cacheKeyInput question collectionName)

/-- `ANSWER_CACHE[key] = answer` on a Python dict, as a map update. -/
def cachePut (cache : String → Option String) (k v : String) : String → Option String :=
  fun k' => if k' = k then some v else cache k'

/-- `get_cached_answer_or_generate` (main.py lines 57-88) at the level of
its cache behaviour: on a hit the cached answer is returned at once
(main.py lines 65-67), before any credential lookup or LLM work; on a miss
the expensive retrieval-and-LLM path runs (its produced answer is the
parameter `generated`) and is cached.  The returned flag records whether
the expensive path was invoked. -/
def get_cached_answer_or_generate (md5hex : String → String)
    (cache : String → Option String) (question collectionName generated : String) :
    String × (String → Option String) × Bool :=
  let key := get_cache_key md5hex question collectionName
  match cache key with
  | some a => (a, cache, false)
  | none => (generated, cachePut cache key generated, true)

/- ### LLM handler error handling (src/app/llm_handler.py) -/

/-- Outcome of the single `client.chat.completions.create` call inside
`generate_answer_async` (llm_handler.py lines 100-110): success with the
model text, or one of the three handled exception classes. -/
inductive LLMOutcome
  | success (text : String)
  | rateLimited
  | groqError
  | otherError
deriving Repr, DecidableEq

/-- Control flow of `generate_answer_async` around its completion call
(llm_handler.py lines 99-179), threading the credential-pool state and
counting completion invocations.  The function makes exactly one
completion attempt; each `except` arm (lines 168-179) returns a fixed
placeholder string and performs no `api_manager` call — no
`mark_key_error`/`mark_key_success` appears anywhere in the function, so
the pool state passes through unchanged.  Post-processing of a successful
answer (pure string cleanup, lines 114-166) is abstracted as the text
itself. -/
def generate_answer_outcome (m : APIKeyManager) (outcome : LLMOutcome) :
    String × APIKeyManager × Nat :=
  match outcome with
  | .success t => (t, m, 1)
  | .rateLimited => ("The server is busy, please try again in a moment.", m, 1)
  | .groqError => ("An error occurred while communicating with the AI service.", m, 1)
  | .otherError => ("An unexpected error occurred while generating the answer.", m, 1)

/- ### Batch orchestration (src/app/main.py, src/app/llm_handler.py) -/

/-- Semantics of `asyncio.gather(*tasks)` result assembly: each task's
completion is an event `(position, answer)`; events arrive in an arbitrary
completion order and each result is placed at its task's position.
`gather` then reads the slots in position order. -/
def fillSlots (n : Nat) (events : List (Nat × String)) : List (Option String) :=
  events.foldl (fun acc p => acc.set p.1 (some p.2)) (List.replicate n none)

/-- The sequential question loop of `answer_direct_llm` (llm_handler.py
lines 188-345): `answers = []` then `answers.append(...)` per question, in
question order; `answerOf` abstracts one question's produced answer. -/
def answer_direct_llm_model (questions : List String) (answerOf : String → String) :
    List String :=
  questions.foldl (fun acc q => acc ++ [answerOf q]) []

/- ### Concurrency model (src/app/main.py lines 26-28, 39-47, 57-88)

A cooperative interleaving semantics: each task is a list of atomic
steps; a scheduler (a list of task indices) executes one enabled step at
a time.  `avail` is the number of free permits of `API_SEMAPHORE`,
`inFlight` the number of LLM completion calls currently running. -/
inductive SchedStep
  | acquire
  | release
  | callStart
  | callEnd
deriving Repr, DecidableEq

structure Sched where
  tasks : List (List SchedStep)
  avail : Nat
  inFlight : Nat
deriving Repr, DecidableEq

/-- Execute the next step of task `i`, when enabled. -/
def stepTask (s : Sched) (i : Nat) : Option Sched :=
  match s.tasks.getD i [] with
  | [] => none
  | st :: rest =>
    match st with
    | .acquire =>
      if 0 < s.avail then
        some ⟨s.tasks.set i rest, s.avail - 1, s.inFlight⟩
      else none
    | .release => some ⟨s.tasks.set i rest, s.avail + 1, s.inFlight⟩
    | .callStart => some ⟨s.tasks.set i rest, s.avail, s.inFlight + 1⟩
    | .callEnd => some ⟨s.tasks.set i rest, s.avail, s.inFlight - 1⟩

def runSchedule (s : Sched) : List Nat → Option Sched
  | [] => some s
  | i :: rest =>
    match stepTask s i with
    | none => none
    | some s' => runSchedule s' rest

/-- `API_CONCURRENCY_LIMIT = 8` (main.py line 27). -/
def API_CONCURRENCY_LIMIT : Nat := 8

/-- One question's task on the pipeline's retrieval path
(`get_cached_answer_or_generate`, main.py lines 57-88): the LLM call at
line 82 is awaited directly, with no semaphore acquisition around it. -/
def unguardedCallProg : List SchedStep := [.callStart, .callEnd]

/-- One question's task in the helper `process_single_question` (main.py
lines 39-47): `async with API_SEMAPHORE` around the call.  This helper is
not invoked by `run_query_pipeline`. -/
def guardedCallProg : List SchedStep := [.acquire, .callStart, .callEnd, .release]

/-- The single sequential task of `answer_direct_llm` for `n` questions:
one completion call after another (llm_handler.py lines 189-345). -/
def directCallsProg : Nat → List SchedStep
  | 0 => []
  | n + 1 => .callStart :: .callEnd :: directCallsProg n

/-- Initial state of a retrieval-strategy batch of `n` questions
(`asyncio.gather` over `get_cached_answer_or_generate` tasks, main.py
lines 274-276), with the 8-permit semaphore present but unused by these
tasks. -/
def retrievalBatchInit (n : Nat) : Sched :=
  ⟨List.replicate n unguardedCallProg, API_CONCURRENCY_LIMIT, 0⟩

/-- Initial state of a direct-strategy batch of `n` questions (one
sequential task, main.py line 245). -/
def directBatchInit (n : Nat) : Sched :=
  ⟨[directCallsProg n], API_CONCURRENCY_LIMIT, 0⟩

/-! ## Theorems -/

/-- C3: `classify` is a deterministic function of
(size, pageCount, domainScore, generalScore, url): the source decision
logic coincides, on every input, with the fixed first-match precedence
table stated in the claim, and the three quoted examples evaluate as
claimed (15MB to direct; 3MB/250 pages/domain 6 to retrieval;
3MB/50 pages/general 4/domain 1 to direct). -/
theorem C3_router_precedence :
    (∀ (fileSize totalPages insuranceScore generalScore : Nat) (url : Option String),
        analyze_document_strategy fileSize totalPages insuranceScore generalScore url
          = classifySpecPrecedence fileSize totalPages insuranceScore generalScore url)
    ∧ analyze_document_strategy (15 * 1048576) 40 0 0 none = Strategy.direct_llm
    ∧ analyze_document_strategy (3 * 1048576) 250 6 0 none = Strategy.rag
    ∧ analyze_document_strategy (3 * 1048576) 50 1 4 none = Strategy.direct_llm := by
  refine ⟨?_, by decide, by decide, by decide⟩
  intro fs tp ins gen url
  simp only [analyze_document_strategy, classifySpecPrecedence]
  split_ifs <;> first | rfl | omega | simp_all

/-- C7 (amended): `generate_answer_async` converts every provider error
(rate limit, Groq error, timeout or other exception) into a fixed
placeholder answer without recording anything against the credential —
the pool state passes through unchanged, so `recordFailure` is never
invoked on this path — and the failing completion call is not re-invoked
(exactly one completion attempt is made regardless of outcome). -/
theorem C7_no_error_recording (m : APIKeyManager) (outcome : LLMOutcome) :
    (generate_answer_outcome m outcome).2.1 = m
      ∧ (generate_answer_outcome m outcome).2.2 = 1 := by
  cases outcome <;> exact ⟨rfl, rfl⟩

/-- C7 counterexample: the claim says a timeout/generic failure is
recorded against the used credential's error count; on a fresh one-key
pool a generic exception outcome leaves the error count at 0 (and the
claim would require it to become 1). -/
theorem C7_counterexample :
    (((generate_answer_outcome (initManager ["gsk_k1aaaaaa"]) LLMOutcome.otherError).2.1
          ).keyStatus.getD 0 default).errorCount = 0
      ∧ ¬ (((generate_answer_outcome (initManager ["gsk_k1aaaaaa"])
          LLMOutcome.otherError).2.1).keyStatus.getD 0 default).errorCount
            = ((initManager ["gsk_k1aaaaaa"]).keyStatus.getD 0 default).errorCount + 1 := by
  exact ⟨by decide, by decide⟩

/-- C9: the cache key depends only on the document identity and the
trimmed, lowercased question text, so after a `put` under question `q`, a
lookup with any question agreeing with `q` after strip-and-lowercase
returns the cached answer immediately, with the expensive
retrieval-and-LLM path not invoked (flag `false`). -/
theorem C9_cache_normalization (md5hex : String → String)
    (cache : String → Option String) (q q' coll a g : String)
    (h : normalizeQuestion q' = normalizeQuestion q) :
    get_cache_key md5hex q' coll = get_cache_key md5hex q coll
    ∧ get_cached_answer_or_generate md5hex
        (cachePut cache (get_cache_key md5hex q coll) a) q' coll g
      = (a, cachePut cache (get_cache_key md5hex q coll) a, false) := by
  have hk : get_cache_key md5hex q' coll = get_cache_key md5hex q coll := by
    simp only [get_cache_key, cacheKeyInput, h]
  refine ⟨hk, ?_⟩
  simp [get_cached_answer_or_generate, hk, cachePut]

/-- C9 witness at a concrete input: the stored question and the queried
question differ only in case and surrounding whitespace. -/
theorem C9_cache_normalization_witness :
    normalizeQuestion "  WHAT Is Covered? " = normalizeQuestion "what is covered?"
    ∧ (get_cache_key id "  WHAT Is Covered? " "doc-1"
          = get_cache_key id "what is covered?" "doc-1"
      ∧ get_cached_answer_or_generate id
          (cachePut (fun _ => none) (get_cache_key id "what is covered?" "doc-1") "Yes.")
          "  WHAT Is Covered? " "doc-1" "EXPENSIVE"
        = ("Yes.", cachePut (fun _ => none)
            (get_cache_key id "what is covered?" "doc-1") "Yes.", false)) :=
  ⟨by decide,
   C9_cache_normalization id (fun _ => none) "what is covered?" "  WHAT Is Covered? "
     "doc-1" "Yes." "EXPENSIVE" (by decide)⟩

/-! ### List helper lemmas -/

theorem getD_set_self {α : Type _} : ∀ (l : List α) (i : Nat) (a d : α), i < l.length →
    (l.set i a).getD i d = a
  | [], _, _, _, h => by simp at h
  | _ :: _, 0, _, _, _ => rfl
  | _ :: xs, i + 1, a, d, h => getD_set_self xs i a d (Nat.lt_of_succ_lt_succ h)

theorem getD_set_ne {α : Type _} : ∀ (l : List α) (i j : Nat) (a d : α), i ≠ j →
    (l.set j a).getD i d = l.getD i d
  | [], _, _, _, _, _ => rfl
  | _ :: _, 0, 0, _, _, h => absurd rfl h
  | _ :: _, 0, _ + 1, _, _, _ => rfl
  | _ :: _, _ + 1, 0, _, _, _ => rfl
  | _ :: xs, i + 1, j + 1, a, d, h => getD_set_ne xs i j a d (fun he => h (by omega))

/-! ### C6 -/

/-- C6 (amended): `mark_key_error` flips `healthy` to false exactly when
the cumulative error count (which a success never resets) reaches 3 or
more; `mark_key_success` restores `healthy = true` at any time while
leaving the error count unchanged.  In particular three failures from a
fresh credential make it unhealthy, but the counter is cumulative rather
than consecutive. -/
theorem C6_cumulative_error_threshold (m : APIKeyManager) (i : Nat) (e : String)
    (hi : i < m.keyStatus.length) :
    (((mark_key_error m i e).keyStatus.getD i default).healthy
        = if 3 ≤ (m.keyStatus.getD i default).errorCount + 1 then false
          else (m.keyStatus.getD i default).healthy)
    ∧ ((mark_key_error m i e).keyStatus.getD i default).errorCount
        = (m.keyStatus.getD i default).errorCount + 1
    ∧ ((mark_key_success m i).keyStatus.getD i default).healthy = true
    ∧ ((mark_key_success m i).keyStatus.getD i default).errorCount
        = (m.keyStatus.getD i default).errorCount := by
  refine ⟨?_, ?_, ?_, ?_⟩
  · simp only [mark_key_error, if_pos hi]
    rw [getD_set_self _ _ _ _ hi]
    split_ifs <;> rfl
  · simp only [mark_key_error, if_pos hi]
    rw [getD_set_self _ _ _ _ hi]
    split_ifs <;> rfl
  · simp only [mark_key_success, if_pos hi]
    rw [getD_set_self _ _ _ _ hi]
  · simp only [mark_key_success, if_pos hi]
    rw [getD_set_self _ _ _ _ hi]

/-- C6 witness: a fresh one-credential pool; a single error increments the
count to 1 and leaves the credential healthy, a success keeps it healthy
with count unchanged. -/
theorem C6_cumulative_error_threshold_witness :
    (((mark_key_error (initManager ["gsk_k1aaaaaa"]) 0 "timeout").keyStatus.getD 0
            default).healthy
        = if 3 ≤ ((initManager ["gsk_k1aaaaaa"]).keyStatus.getD 0 default).errorCount + 1
          then false
          else ((initManager ["gsk_k1aaaaaa"]).keyStatus.getD 0 default).healthy)
    ∧ ((mark_key_error (initManager ["gsk_k1aaaaaa"]) 0 "timeout").keyStatus.getD 0
          default).errorCount
        = ((initManager ["gsk_k1aaaaaa"]).keyStatus.getD 0 default).errorCount + 1
    ∧ ((mark_key_success (initManager ["gsk_k1aaaaaa"]) 0).keyStatus.getD 0
          default).healthy = true
    ∧ ((mark_key_success (initManager ["gsk_k1aaaaaa"]) 0).keyStatus.getD 0
          default).errorCount
        = ((initManager ["gsk_k1aaaaaa"]).keyStatus.getD 0 default).errorCount :=
  C6_cumulative_error_threshold (initManager ["gsk_k1aaaaaa"]) 0 "timeout" (by decide)

/-- C6 counterexample: after error, error, success, error the code marks
the credential unhealthy although only one consecutive failure (in the
claim's sense, reset by the success) has occurred — the source counts
cumulatively and never resets on success. -/
theorem C6_counterexample :
    ((applyOps (initManager ["gsk_k1aaaaaa"])
          [MgrOp.err 0 "timeout A", MgrOp.err 0 "timeout B", MgrOp.succ 0,
            MgrOp.err 0 "timeout C"]).keyStatus.getD 0 default).healthy = false
    ∧ consecutiveFailures 0
        [MgrOp.err 0 "timeout A", MgrOp.err 0 "timeout B", MgrOp.succ 0,
          MgrOp.err 0 "timeout C"] = 1 := by
  exact ⟨by decide, by decide⟩

/-! ### C2 -/

theorem blocked_mono_applyOp (m : APIKeyManager) (op : MgrOp) (i : Nat)
    (h : i ∈ m.blockedKeys) : i ∈ (applyOp m op).blockedKeys := by
  cases op with
  | err j e =>
    simp only [applyOp, mark_key_error]
    split_ifs <;> first | exact h | exact Finset.mem_insert_of_mem h
  | succ j =>
    simp only [applyOp, mark_key_success]
    split_ifs <;> exact h

theorem blocked_mono_applyOps (m : APIKeyManager) (ops : List MgrOp) (i : Nat)
    (h : i ∈ m.blockedKeys) : i ∈ (applyOps m ops).blockedKeys := by
  induction ops generalizing m with
  | nil => exact h
  | cons op rest ih => exact ih _ (blocked_mono_applyOp m op i h)

theorem get_best_key_not_blocked (m : APIKeyManager) (j : Nat) (k : String)
    (h : get_best_key m = some (j, k)) : j ∉ m.blockedKeys := by
  have hx : (j, k) ∈ (get_healthy_keys m).mergeSort
      (fun a b => m.keyUsageCount.getD a.1 0 ≤ m.keyUsageCount.getD b.1 0) := by
    unfold get_best_key at h
    exact List.mem_of_mem_head? (by rw [h]; exact rfl)
  have hmem : (j, k) ∈ get_healthy_keys m := List.mem_mergeSort.mp hx
  simp only [get_healthy_keys, List.mem_map, List.mem_filter, List.mem_range] at hmem
  obtain ⟨i, ⟨_, hcond⟩, heq⟩ := hmem
  have hij : i = j := congrArg Prod.fst heq
  rw [Bool.and_eq_true, decide_eq_true_eq] at hcond
  exact hij ▸ hcond.1

/-- C2 (amended): once a credential index is in `blocked_keys`, it stays
there for every later sequence of `mark_key_error` / `mark_key_success`
calls (nothing ever removes it, and later successes only restore
`healthy`), and the least-used best-available selection `get_best_key`
never returns it.  The round-robin selection of the separate
`MultiKeyRateLimiter` is not restricted by the blocked set (see the
counterexample). -/
theorem C2_blocking_excludes_best_key (m : APIKeyManager) (i j : Nat) (k : String)
    (ops : List MgrOp) (hb : i ∈ m.blockedKeys) :
    i ∈ (applyOps m ops).blockedKeys
    ∧ (get_best_key (applyOps m ops) = some (j, k) → j ≠ i) := by
  refine ⟨blocked_mono_applyOps m ops i hb, fun h hji => ?_⟩
  exact get_best_key_not_blocked _ j k h (hji ▸ blocked_mono_applyOps m ops i hb)

/-- C2 witness: key 0 of a two-credential pool receives a restriction
error and stays excluded from `get_best_key` across later successes and
errors. -/
theorem C2_blocking_excludes_best_key_witness :
    0 ∈ (applyOps
          (applyOps (initManager ["gsk_k1aaaaaa", "gsk_k2bbbbbb"])
            [MgrOp.err 0 "organization_restricted: access denied"])
          [MgrOp.succ 0, MgrOp.err 1 "timeout", MgrOp.succ 1]).blockedKeys
    ∧ (get_best_key (applyOps
          (applyOps (initManager ["gsk_k1aaaaaa", "gsk_k2bbbbbb"])
            [MgrOp.err 0 "organization_restricted: access denied"])
          [MgrOp.succ 0, MgrOp.err 1 "timeout", MgrOp.succ 1]) = some (1, "gsk_k2bbbbbb")
        → 1 ≠ 0) :=
  C2_blocking_excludes_best_key
    (applyOps (initManager ["gsk_k1aaaaaa", "gsk_k2bbbbbb"])
      [MgrOp.err 0 "organization_restricted: access denied"])
    0 1 "gsk_k2bbbbbb" [MgrOp.succ 0, MgrOp.err 1 "timeout", MgrOp.succ 1] (by decide)

/-- C2 counterexample: the claim says a blocked credential is excluded
from every subsequent selection, including the round-robin selection used
for outbound LLM calls; but `MultiKeyRateLimiter.get_next_available_key`
never consults `blocked_keys` and returns key 0 even though key 0 was
permanently blocked (and later marked successful) in the manager. -/
theorem C2_counterexample :
    0 ∈ (applyOps (initManager ["gsk_k1aaaaaa", "gsk_k2bbbbbb"])
          [MgrOp.err 0 "organization_restricted: access denied",
            MgrOp.succ 0]).blockedKeys
    ∧ (get_next_available_key ⟨["gsk_k1aaaaaa", "gsk_k2bbbbbb"], 25, [[], []], 0⟩
          [100, 100, 100, 100] 100 100).1 = 0 := by
  exact ⟨by decide, by decide⟩

/-! ### C10 -/

/-- C10: a trimmed line occurring on all pages and longer than 10
characters is removed from every page by the header/footer strip (no
surviving raw line of any page trims to it); a line occurring on exactly
N-1 of the N pages is retained wherever it occurs. -/
theorem C10_header_footer_strip (pages : List String) (line p raw : String) :
    ((∀ q ∈ pages, line ∈ linesOnPage q) → 10 < line.length → p ∈ pages →
        raw ∈ cleanPageLines pages p → stripStr raw ≠ line)
    ∧ (pages ≠ [] → pagesContaining pages line = pages.length - 1 →
        raw ∈ splitlines p → stripStr raw = line →
        raw ∈ cleanPageLines pages p) := by
  constructor
  · intro hall hlen _ hraw heq
    rw [cleanPageLines, List.mem_filter] at hraw
    obtain ⟨_, hcond⟩ := hraw
    have hrep : isRepeatedLine pages line = true := by
      rw [isRepeatedLine, Bool.and_eq_true]
      constructor
      · have hfe : pages.filter (fun q => decide (line ∈ linesOnPage q)) = pages :=
          List.filter_eq_self.mpr (fun q hq => decide_eq_true (hall q hq))
        rw [pagesContaining, hfe]
        exact beq_self_eq_true _
      · exact decide_eq_true hlen
    rw [heq, hrep] at hcond
    exact Bool.false_ne_true hcond
  · intro hne hcount hraw heq
    rw [cleanPageLines, List.mem_filter]
    refine ⟨hraw, ?_⟩
    have h0 : 0 < pages.length := List.length_pos.mpr hne
    have hrep : isRepeatedLine pages line = false := by
      rw [isRepeatedLine, hcount]
      have hb : (pages.length - 1 == pages.length) = false := by
        rw [Bool.eq_false_iff]
        intro hc
        rw [beq_iff_eq] at hc
        omega
      rw [hb, Bool.false_and]
    rw [heq, hrep]
    rfl

/-- C10 witness: a two-page document with the repeated long header
stripped everywhere; a line on only one of the two pages survives. -/
theorem C10_header_footer_strip_witness :
    stripStr "only one" ≠ "HEADER LINE ABC"
    ∧ "beta two" ∈ cleanPageLines
        ["HEADER LINE ABC\nonly one", "HEADER LINE ABC\nbeta two"]
        "HEADER LINE ABC\nbeta two" :=
  ⟨(C10_header_footer_strip
      ["HEADER LINE ABC\nonly one", "HEADER LINE ABC\nbeta two"]
      "HEADER LINE ABC" "HEADER LINE ABC\nonly one" "only one").1
    (by decide) (by decide) (by decide) (by decide),
   (C10_header_footer_strip
      ["HEADER LINE ABC\nonly one", "HEADER LINE ABC\nbeta two"]
      "beta two" "HEADER LINE ABC\nbeta two" "beta two").2
    (by decide) (by decide) (by decide) (by decide)⟩

/-! ### C8 -/

theorem fillSlots_go (ans : Nat → String) :
    ∀ (events : List (Nat × String)) (acc : List (Option String)),
      (∀ p ∈ events, p.2 = ans p.1) →
      (events.foldl (fun a p => a.set p.1 (some p.2)) acc).length = acc.length
      ∧ ∀ i,
        (i ∈ events.map Prod.fst → i < acc.length →
          (events.foldl (fun a p => a.set p.1 (some p.2)) acc).getD i none = some (ans i))
        ∧ (i ∉ events.map Prod.fst →
          (events.foldl (fun a p => a.set p.1 (some p.2)) acc).getD i none
            = acc.getD i none)
  | [], acc, _ => ⟨rfl, fun i => ⟨fun h => absurd h (List.not_mem_nil i), fun _ => rfl⟩⟩
  | (j, a) :: rest, acc, h => by
    have ha : a = ans j := h (j, a) (List.mem_cons_self _ _)
    have ih := fillSlots_go ans rest (acc.set j (some a))
      (fun p hp => h p (List.mem_cons_of_mem _ hp))
    simp only [List.foldl_cons]
    refine ⟨ih.1.trans (List.length_set ..), fun i => ⟨?_, ?_⟩⟩
    · intro hmem hlt
      rw [List.map_cons, List.mem_cons] at hmem
      by_cases hr : i ∈ rest.map Prod.fst
      · exact (ih.2 i).1 hr (by rw [List.length_set]; exact hlt)
      · have hij : i = j := by
          rcases hmem with hij | hr2
          · exact hij
          · exact absurd hr2 hr
        rw [(ih.2 i).2 hr, hij, getD_set_self _ _ _ _ (hij ▸ hlt), ha]
    · intro hmem
      rw [List.map_cons, List.mem_cons] at hmem
      push_neg at hmem
      rw [(ih.2 i).2 hmem.2, getD_set_ne _ _ _ _ _ hmem.1]

theorem foldl_append_eq_map (f : String → String) :
    ∀ (qs : List String) (acc : List String),
      qs.foldl (fun a q => a ++ [f q]) acc = acc ++ qs.map f
  | [], acc => by simp
  | q :: qs, acc => by
    rw [List.foldl_cons, foldl_append_eq_map f qs (acc ++ [f q])]
    simp

/-- C8: the batch join is position-preserving.  Under the retrieval
strategy `asyncio.gather` places each completion at its task's input
position, so for any completion order (any permutation of the per-task
completion events) slot `i` holds question `i`'s answer; under the
direct-context strategy the sequential loop appends answers in question
order, producing exactly the questions mapped in order. -/
theorem C8_order_preservation (n : Nat) (ans : Nat → String)
    (events : List (Nat × String)) (qs : List String) (f : String → String)
    (hperm : events.Perm ((List.range n).map (fun i => (i, ans i)))) :
    fillSlots n events = (List.range n).map (fun i => some (ans i))
    ∧ answer_direct_llm_model qs f = qs.map f := by
  constructor
  · have hpairs : ∀ p ∈ events, p.2 = ans p.1 := by
      intro p hp
      have : p ∈ (List.range n).map (fun i => (i, ans i)) := hperm.mem_iff.mp hp
      obtain ⟨i, _, hip⟩ := List.mem_map.mp this
      rw [← hip]
    have hgo := fillSlots_go ans events (List.replicate n none) hpairs
    have hlen : (fillSlots n events).length = n := by
      simp only [fillSlots]
      rw [hgo.1, List.length_replicate]
    have hlen2 : ((List.range n).map (fun i => some (ans i))).length = n := by
      rw [List.length_map, List.length_range]
    apply List.ext_getElem (by rw [hlen, hlen2])
    intro i h1 h2
    have hin : i < n := by rwa [hlen] at h1
    have hmem : i ∈ events.map Prod.fst := by
      have : (i, ans i) ∈ events := by
        rw [hperm.mem_iff]
        exact List.mem_map.mpr ⟨i, List.mem_range.mpr hin, rfl⟩
      exact List.mem_map.mpr ⟨(i, ans i), this, rfl⟩
    have hval := (hgo.2 i).1 hmem (by rwa [List.length_replicate])
    rw [← List.getD_eq_getElem (fillSlots n events) none h1]
    simp only [fillSlots]
    rw [hval]
    rw [List.getElem_map, List.getElem_range]
  · rw [answer_direct_llm_model, foldl_append_eq_map, List.nil_append]

/-- C8 witness: three completion events arriving out of order fill the
slots in question order; the sequential direct loop maps two questions in
order. -/
theorem C8_order_preservation_witness :
    fillSlots 3 [(2, "c"), (0, "a"), (1, "b")] = [some "a", some "b", some "c"]
    ∧ answer_direct_llm_model ["Q1", "Q2"] lowerStr = ["q1", "q2"] := by
  have h := C8_order_preservation 3
    (fun i => if i = 0 then "a" else if i = 1 then "b" else "c")
    [(2, "c"), (0, "a"), (1, "b")] ["Q1", "Q2"] lowerStr (by decide)
  exact ⟨h.1.trans (by decide), h.2.trans (by decide)⟩

/-! ### C4 -/

theorem cntP_set (p : List SchedStep → Bool) :
    ∀ (l : List (List SchedStep)) (i : Nat) (r : List SchedStep), i < l.length →
      ((l.set i r).filter p).length + (if p (l.getD i []) then 1 else 0)
        = (l.filter p).length + (if p r then 1 else 0)
  | [], i, _, h => by simp at h
  | x :: xs, 0, r, _ => by
    simp only [List.set, List.getD_cons_zero]
    rw [List.filter_cons, List.filter_cons]
    by_cases hr : p r <;> by_cases hx : p x <;> simp [hr, hx]
  | x :: xs, i + 1, r, h => by
    simp only [List.set, List.getD_cons_succ]
    rw [List.filter_cons, List.filter_cons]
    have ih := cntP_set p xs i r (Nat.lt_of_succ_lt_succ h)
    by_cases hx : p x <;> by_cases hg : p (xs.getD i []) <;> by_cases hr : p r <;>
      simp [hx, hg, hr] at ih ⊢ <;> omega

/-- Task shapes reachable from `unguardedCallProg`. -/
def unguardedShape (r : List SchedStep) : Prop :=
  r = unguardedCallProg ∨ r = [SchedStep.callEnd] ∨ r = []

def isEndTask (r : List SchedStep) : Bool := r == [SchedStep.callEnd]

/-- Invariant of a retrieval-strategy batch: every task is a residue of
`unguardedCallProg` and `inFlight` equals the number of tasks that have
started but not finished their call. -/
def RInv (n : Nat) (s : Sched) : Prop :=
  s.tasks.length = n
  ∧ (∀ r ∈ s.tasks, unguardedShape r)
  ∧ s.inFlight = (s.tasks.filter isEndTask).length

theorem getD_mem_of_lt {α : Type _} (l : List α) (i : Nat) (d : α) (h : i < l.length) :
    l.getD i d ∈ l := by
  rw [List.getD_eq_getElem l d h]
  exact List.getElem_mem h

theorem filter_isEndTask_replicate (n : Nat) :
    (List.replicate n unguardedCallProg).filter isEndTask = [] := by
  induction n with
  | zero => rfl
  | succ m ih =>
    have hfe : isEndTask unguardedCallProg = false := by decide
    rw [List.replicate_succ, List.filter_cons, hfe]
    simpa using ih

theorem stepTask_RInv (n : Nat) (s s' : Sched) (i : Nat)
    (hs : RInv n s) (h : stepTask s i = some s') : RInv n s' := by
  obtain ⟨hlen, hshape, hcount⟩ := hs
  unfold stepTask at h
  cases hg : s.tasks.getD i [] with
  | nil => rw [hg] at h; exact absurd h (by simp)
  | cons st0 rest =>
    rw [hg] at h
    have hil : i < s.tasks.length := by
      by_contra hge
      push_neg at hge
      rw [List.getD_eq_default _ _ hge] at hg
      exact List.noConfusion hg
    have hmem : st0 :: rest ∈ s.tasks := hg ▸ getD_mem_of_lt s.tasks i [] hil
    have hsh := hshape _ hmem
    rcases hsh with hu | he | hn
    · -- task still has its whole program: the step is its callStart
      rw [unguardedCallProg] at hu
      obtain ⟨h0, h1⟩ := List.cons.inj hu
      subst h0
      rw [h1] at h
      have hs' : s' = ⟨s.tasks.set i [SchedStep.callEnd], s.avail, s.inFlight + 1⟩ :=
        (Option.some.inj h).symm
      subst hs'
      refine ⟨by simpa using hlen, ?_, ?_⟩
      · intro r hr
        rcases List.mem_or_eq_of_mem_set hr with hr2 | hr2
        · exact hshape r hr2
        · exact Or.inr (Or.inl hr2)
      · have hc := cntP_set isEndTask s.tasks i [SchedStep.callEnd] hil
        rw [hg, h1] at hc
        have hcu : isEndTask (SchedStep.callStart :: [SchedStep.callEnd]) = false := by decide
        have hce : isEndTask [SchedStep.callEnd] = true := by decide
        rw [hcu, hce] at hc
        simp only [if_pos, if_neg, Bool.false_eq_true, if_false, if_true] at hc
        show s.inFlight + 1 = (List.filter isEndTask (s.tasks.set i [SchedStep.callEnd])).length
        omega
    · -- task has done its callStart: the step is its callEnd
      obtain ⟨h0, h1⟩ := List.cons.inj he
      subst h0
      rw [h1] at h
      have hs' : s' = ⟨s.tasks.set i [], s.avail, s.inFlight - 1⟩ :=
        (Option.some.inj h).symm
      subst hs'
      refine ⟨by simpa using hlen, ?_, ?_⟩
      · intro r hr
        rcases List.mem_or_eq_of_mem_set hr with hr2 | hr2
        · exact hshape r hr2
        · exact Or.inr (Or.inr hr2)
      · have hc := cntP_set isEndTask s.tasks i [] hil
        rw [hg, h1] at hc
        have hce : isEndTask [SchedStep.callEnd] = true := by decide
        have hcn : isEndTask [] = false := by decide
        rw [hce, hcn] at hc
        simp only [if_pos, if_neg, Bool.false_eq_true, if_false, if_true] at hc
        show s.inFlight - 1
            = (List.filter isEndTask (s.tasks.set i ([] : List SchedStep))).length
        omega
    · exact absurd hn (by simp)

theorem runSchedule_preserve (P : Sched → Prop)
    (hstep : ∀ s s' i, P s → stepTask s i = some s' → P s') :
    ∀ (sched : List Nat) (s s' : Sched), P s → runSchedule s sched = some s' → P s'
  | [], s, s', hs, h => by
    rw [runSchedule] at h
    exact (Option.some.inj h) ▸ hs
  | i :: rest, s, s', hs, h => by
    rw [runSchedule] at h
    cases hst : stepTask s i with
    | none => rw [hst] at h; exact absurd h (by simp)
    | some s1 =>
      rw [hst] at h
      exact runSchedule_preserve P hstep rest s1 s' (hstep s s1 i hs hst) h

/-- Task-list shapes reachable from the sequential `directCallsProg`. -/
def DInv (s : Sched) : Prop :=
  ∃ j, (s.tasks = [directCallsProg j] ∧ s.inFlight = 0)
    ∨ (s.tasks = [SchedStep.callEnd :: directCallsProg j] ∧ s.inFlight = 1)

theorem stepTask_DInv (s s' : Sched) (i : Nat) (hs : DInv s)
    (h : stepTask s i = some s') : DInv s' := by
  obtain ⟨j, hc⟩ := hs
  unfold stepTask at h
  rcases hc with ⟨ht, hf⟩ | ⟨ht, hf⟩
  · cases j with
    | zero =>
      rw [ht] at h
      cases i with
      | zero => simp [directCallsProg] at h
      | succ m => simp at h
    | succ k =>
      rw [ht] at h
      cases i with
      | zero =>
        simp only [List.getD_cons_zero, directCallsProg] at h
        have hs' : s' = ⟨[directCallsProg (k + 1)].set 0
            (SchedStep.callEnd :: directCallsProg k), s.avail, s.inFlight + 1⟩ :=
          (Option.some.inj h).symm
        subst hs'
        exact ⟨k, Or.inr ⟨by simp, by rw [hf]⟩⟩
      | succ m => simp at h
  · rw [ht] at h
    cases i with
    | zero =>
      simp only [List.getD_cons_zero] at h
      have hs' : s' = ⟨[SchedStep.callEnd :: directCallsProg j].set 0 (directCallsProg j),
          s.avail, s.inFlight - 1⟩ :=
        (Option.some.inj h).symm
      subst hs'
      exact ⟨j, Or.inl ⟨by simp, by rw [hf]⟩⟩
    | succ m => simp at h

/-- C4 (amended): per-question work in a batch runs under the
interleaving semantics, but the 8-permit `API_SEMAPHORE` is acquired only
by the unused helper `process_single_question`; the pipeline's retrieval
path awaits the LLM call unguarded, so the number of simultaneously
in-flight completion calls is bounded only by the number `n` of questions
in the batch (and can exceed 8 — see the counterexample), while the
direct-context path issues its calls sequentially in a single task, so at
most one call is in flight there. -/
theorem C4_inflight_bounds (n : Nat) (sched1 sched2 : List Nat) (s1 s2 : Sched)
    (h1 : runSchedule (retrievalBatchInit n) sched1 = some s1)
    (h2 : runSchedule (directBatchInit n) sched2 = some s2) :
    s1.inFlight ≤ n ∧ s2.inFlight ≤ 1 := by
  constructor
  · have hinit : RInv n (retrievalBatchInit n) := by
      refine ⟨List.length_replicate .., ?_, ?_⟩
      · intro r hr
        exact Or.inl (List.eq_of_mem_replicate hr)
      · show (0 : Nat) = (List.filter isEndTask (List.replicate n unguardedCallProg)).length
        rw [filter_isEndTask_replicate]
        rfl
    have hfin := runSchedule_preserve (RInv n) (fun s s' i hs h => stepTask_RInv n s s' i hs h)
      sched1 _ s1 hinit h1
    obtain ⟨hlen, _, hcount⟩ := hfin
    rw [hcount, ← hlen]
    exact List.length_filter_le _ _
  · have hinit : DInv (directBatchInit n) := ⟨n, Or.inl ⟨rfl, rfl⟩⟩
    have hfin := runSchedule_preserve DInv (fun s s' i hs h => stepTask_DInv s s' i hs h)
      sched2 _ s2 hinit h2
    obtain ⟨j, hc⟩ := hfin
    rcases hc with ⟨_, hf⟩ | ⟨_, hf⟩ <;> omega

/-- C4 witness: a batch of two retrieval questions both start their calls
(two in flight, bounded by 2); the direct path after one step has one call
in flight. -/
theorem C4_inflight_bounds_witness :
    (⟨[[SchedStep.callEnd], [SchedStep.callEnd]], 8, 2⟩ : Sched).inFlight ≤ 2
    ∧ (⟨[[SchedStep.callEnd, SchedStep.callStart, SchedStep.callEnd]], 8, 1⟩ : Sched).inFlight
        ≤ 1 :=
  C4_inflight_bounds 2 [0, 1] [0]
    ⟨[[SchedStep.callEnd], [SchedStep.callEnd]], 8, 2⟩
    ⟨[[SchedStep.callEnd, SchedStep.callStart, SchedStep.callEnd]], 8, 1⟩
    (by decide) (by decide)

/-- C4 counterexample: with nine questions on the retrieval path, a
schedule in which every task starts its LLM call before any finishes is
reachable and puts nine calls in flight at once — exceeding the claimed
global ceiling of `API_CONCURRENCY_LIMIT = 8`, which none of these tasks
ever acquires. -/
theorem C4_counterexample :
    API_CONCURRENCY_LIMIT
      < ((runSchedule (retrievalBatchInit 9) [0, 1, 2, 3, 4, 5, 6, 7, 8]).getD
          ⟨[], 0, 0⟩).inFlight := by
  decide

/-! ### Rate limiter lemmas (for C1 and C5) -/

theorem wcount_antitone (t0 t : Int) (h : t0 ≤ t) (l : List Int) :
    wcount t l ≤ wcount t0 l := by
  unfold wcount purgeOld
  apply List.Sublist.length_le
  apply List.monotone_filter_right
  intro a ha
  rw [decide_eq_true_eq] at ha ⊢
  omega

theorem wcount_purge_le (t0 now : Int) (l : List Int) :
    wcount t0 (purgeOld now l) ≤ wcount t0 l := by
  unfold wcount
  exact List.Sublist.length_le (List.Sublist.filter _ (List.filter_sublist l))

theorem purge_length_eq_wcount (now : Int) (l : List Int) :
    (purgeOld now l).length = wcount now l := rfl

theorem purgeOld_idem (now : Int) (l : List Int) :
    purgeOld now (purgeOld now l) = purgeOld now l := by
  unfold purgeOld
  exact List.filter_eq_self.mpr (fun a ha => (List.mem_filter.mp ha).2)

theorem wcount_append_self (now : Int) (l : List Int) :
    wcount now (purgeOld now l ++ [now]) = (purgeOld now l).length + 1 := by
  unfold wcount
  rw [show purgeOld now (purgeOld now l ++ [now])
      = purgeOld now (purgeOld now l) ++ purgeOld now [now] from List.filter_append ..]
  rw [purgeOld_idem]
  have h1 : purgeOld now [now] = [now] := by
    unfold purgeOld
    rw [List.filter_cons]
    simp only [List.filter_nil]
    rw [if_pos (by rw [decide_eq_true_eq]; omega)]
  rw [h1, List.length_append, List.length_cons, List.length_nil]

/-- One unrolling of the attempt loop into an explicit if. -/
theorem tryAttempts_cons (now : Int) (rest : List Int) (rl : RL) :
    tryAttempts (now :: rest) rl
      = if (purgeOld now (rlTimes rl rl.currentKeyIndex)).length < rl.maxRpm then
          (some (rl.currentKeyIndex, now),
           { rl with
             currentKeyIndex := (rl.currentKeyIndex + 1) % rl.keyCount,
             keyRequestTimes := (rl.keyRequestTimes.set rl.currentKeyIndex
                 (purgeOld now (rlTimes rl rl.currentKeyIndex))).set rl.currentKeyIndex
               (purgeOld now (rlTimes rl rl.currentKeyIndex) ++ [now]) })
        else
          tryAttempts rest
            { rl with
              currentKeyIndex := (rl.currentKeyIndex + 1) % rl.keyCount,
              keyRequestTimes := rl.keyRequestTimes.set rl.currentKeyIndex
                (purgeOld now (rlTimes rl rl.currentKeyIndex)) } := rfl

theorem mod_shift (n c j : Nat) : ((c + 1) % n + j) % n = (c + (j + 1)) % n := by
  rw [Nat.mod_add_mod]
  congr 1
  omega

theorem mod_rot_ne (n c d : Nat) (hc : c < n) (hd1 : 0 < d) (hd2 : d < n) :
    (c + d) % n ≠ c := by
  intro h
  rcases Nat.lt_or_ge (c + d) n with hlt | hge
  · rw [Nat.mod_eq_of_lt hlt] at h
    omega
  · have h2 : (c + d) % n = c + d - n := by
      rw [Nat.mod_eq_sub_mod hge, Nat.mod_eq_of_lt (by omega)]
    omega

/-- A call whose first sampled window is below the ceiling selects the
cursor key at the head time and only advances the cursor and appends to
that key's window. -/
theorem get_next_first_success (rl : RL) (now : Int) (rest : List Int) (n2 tA : Int)
    (h : wcount now (rlTimes rl rl.currentKeyIndex) < rl.maxRpm) :
    get_next_available_key rl (now :: rest) n2 tA
      = (rl.currentKeyIndex, now,
         { rl with
           currentKeyIndex := (rl.currentKeyIndex + 1) % rl.keyCount,
           keyRequestTimes := rl.keyRequestTimes.set rl.currentKeyIndex
             (purgeOld now (rlTimes rl rl.currentKeyIndex) ++ [now]) }) := by
  have hta : tryAttempts (now :: rest) rl
      = (some (rl.currentKeyIndex, now),
         { rl with
           currentKeyIndex := (rl.currentKeyIndex + 1) % rl.keyCount,
           keyRequestTimes := rl.keyRequestTimes.set rl.currentKeyIndex
             (purgeOld now (rlTimes rl rl.currentKeyIndex) ++ [now]) }) := by
    have h' : (purgeOld now (rlTimes rl rl.currentKeyIndex)).length < rl.maxRpm := h
    rw [tryAttempts_cons, if_pos h', List.set_set]
  simp only [get_next_available_key, hta]

theorem callRepeatedly_rotation (t0 : Int) :
    ∀ (ps : List (List Int × Int × Int)) (rl : RL),
      0 < rl.keyCount →
      rl.currentKeyIndex < rl.keyCount →
      ps.length ≤ rl.keyCount →
      (∀ p ∈ ps, p.1 ≠ []) →
      (∀ p ∈ ps, ∀ t ∈ p.1, t0 ≤ t) →
      (∀ i, (∃ j, j < ps.length ∧ (rl.currentKeyIndex + j) % rl.keyCount = i) →
        wcount t0 (rlTimes rl i) < rl.maxRpm) →
      (callRepeatedly rl ps).1
        = (List.range ps.length).map (fun j => (rl.currentKeyIndex + j) % rl.keyCount)
  | [], rl, _, _, _, _, _, _ => by
    simp [callRepeatedly]
  | (ts, n2, tA) :: rest, rl, hn, hc, hlen, hne, ht, hwin => by
    obtain ⟨now, ts', hts⟩ : ∃ now ts', ts = now :: ts' := by
      cases hts0 : ts with
      | nil => exact absurd hts0 (hne (ts, n2, tA) (List.mem_cons_self ..))
      | cons a b => exact ⟨a, b, rfl⟩
    have hwc : wcount t0 (rlTimes rl rl.currentKeyIndex) < rl.maxRpm :=
      hwin rl.currentKeyIndex ⟨0, by simp, by simp [Nat.mod_eq_of_lt hc]⟩
    have ht0now : t0 ≤ now :=
      ht (ts, n2, tA) (List.mem_cons_self ..) now (by rw [hts]; exact List.mem_cons_self ..)
    have hwcn : wcount now (rlTimes rl rl.currentKeyIndex) < rl.maxRpm :=
      lt_of_le_of_lt (wcount_antitone t0 now ht0now _) hwc
    have hcall := get_next_first_success rl now ts' n2 tA hwcn
    show (get_next_available_key rl ts n2 tA).1
        :: (callRepeatedly (get_next_available_key rl ts n2 tA).2.2 rest).1 = _
    rw [hts, hcall]
    have hih := callRepeatedly_rotation t0 rest
      { rl with
        currentKeyIndex := (rl.currentKeyIndex + 1) % rl.keyCount,
        keyRequestTimes := rl.keyRequestTimes.set rl.currentKeyIndex
          (purgeOld now (rlTimes rl rl.currentKeyIndex) ++ [now]) }
      hn (Nat.mod_lt _ hn) (by simpa using Nat.le_of_succ_le (by simpa using hlen))
      (fun p hp => hne p (List.mem_cons_of_mem _ hp))
      (fun p hp => ht p (List.mem_cons_of_mem _ hp))
      (fun i hex => by
        obtain ⟨j, hj, hij⟩ := hex
        have hjlt : j + 1 < rl.keyCount := by
          have : rest.length + 1 ≤ rl.keyCount := by simpa using hlen
          omega
        have hij2 : (rl.currentKeyIndex + (j + 1)) % rl.keyCount = i := by
          rw [← mod_shift]
          exact hij
        have hio : wcount t0 (rlTimes rl i) < rl.maxRpm :=
          hwin i ⟨j + 1, by simp; omega, hij2⟩
        have hic : i ≠ rl.currentKeyIndex := by
          intro he
          exact mod_rot_ne rl.keyCount rl.currentKeyIndex (j + 1) hc (by omega) hjlt
            (he ▸ hij2)
        have heq : rlTimes
            { rl with
              currentKeyIndex := (rl.currentKeyIndex + 1) % rl.keyCount,
              keyRequestTimes := rl.keyRequestTimes.set rl.currentKeyIndex
                (purgeOld now (rlTimes rl rl.currentKeyIndex) ++ [now]) } i
            = rlTimes rl i := getD_set_ne _ _ _ _ _ hic
        rw [heq]
        exact hio)
    rw [hih]
    simp only [List.length_cons]
    rw [List.range_succ_eq_map, List.map_cons, List.map_map]
    congr 1
    · simp [Nat.mod_eq_of_lt hc]
    · apply List.map_congr_left
      intro j _
      show ((rl.currentKeyIndex + 1) % rl.keyCount + j) % rl.keyCount
          = (rl.currentKeyIndex + Nat.succ j) % rl.keyCount
      rw [mod_shift]

/-- C5: with every window strictly below the ceiling at a base time, N
consecutive `get_next_available_key` calls (N = pool size) return the N
distinct key indices in cyclic rotation order starting at the current
cursor, with no repetition. -/
theorem C5_round_robin_rotation (rl : RL) (ps : List (List Int × Int × Int)) (t0 : Int)
    (hn : 0 < rl.keyCount)
    (hc : rl.currentKeyIndex < rl.keyCount)
    (hN : ps.length = rl.keyCount)
    (hne : ∀ p ∈ ps, p.1 ≠ [])
    (ht : ∀ p ∈ ps, ∀ t ∈ p.1, t0 ≤ t)
    (hfresh : ∀ i, wcount t0 (rlTimes rl i) < rl.maxRpm) :
    (callRepeatedly rl ps).1
      = (List.range rl.keyCount).map (fun j => (rl.currentKeyIndex + j) % rl.keyCount)
    ∧ (callRepeatedly rl ps).1.Nodup := by
  have hrot := callRepeatedly_rotation t0 ps rl hn hc (le_of_eq hN) hne ht
    (fun i _ => hfresh i)
  rw [hN] at hrot
  refine ⟨hrot, ?_⟩
  rw [hrot]
  apply List.Nodup.map_on ?_ (List.nodup_range _)
  intro j1 h1 j2 h2 he
  rw [List.mem_range] at h1 h2
  have m2 : Nat.ModEq rl.keyCount j1 j2 :=
    Nat.ModEq.add_left_cancel' rl.currentKeyIndex he
  have h3 : j1 % rl.keyCount = j2 % rl.keyCount := m2
  rw [Nat.mod_eq_of_lt h1, Nat.mod_eq_of_lt h2] at h3
  exact h3

/-- C5 witness: a fresh two-key limiter rotates 0 then 1 across two calls. -/
theorem C5_round_robin_rotation_witness :
    (callRepeatedly ⟨["gsk_k1aaaaaa", "gsk_k2bbbbbb"], 25, [[], []], 0⟩
        [([10], 10, 10), ([11], 11, 11)]).1 = [0, 1]
    ∧ (callRepeatedly ⟨["gsk_k1aaaaaa", "gsk_k2bbbbbb"], 25, [[], []], 0⟩
        [([10], 10, 10), ([11], 11, 11)]).1.Nodup := by
  have h := C5_round_robin_rotation ⟨["gsk_k1aaaaaa", "gsk_k2bbbbbb"], 25, [[], []], 0⟩
    [([10], 10, 10), ([11], 11, 11)] 0 (by decide) (by decide) (by decide)
    (by decide) (by decide) (fun i => by
      show wcount 0 ([[], []].getD i []) < 25
      match i with
      | 0 => decide
      | 1 => decide
      | n + 2 => show wcount 0 [] < 25; decide)
  exact ⟨h.1.trans (by decide), h.2⟩

/-! ### C1 -/

theorem set_of_le {α : Type _} : ∀ (l : List α) (n : Nat) (a : α), l.length ≤ n →
    l.set n a = l
  | [], _, _, _ => rfl
  | _ :: _, 0, _, h => by simp at h
  | x :: xs, n + 1, a, h => by
    show x :: xs.set n a = x :: xs
    rw [set_of_le xs n a (by simpa using h)]


theorem rlTimes_update_self (rl : RL) (c cur : Nat) (l : List Int)
    (hc : c < rl.keyRequestTimes.length) :
    rlTimes
      { rl with
        currentKeyIndex := cur,
        keyRequestTimes := rl.keyRequestTimes.set c l } c = l :=
  getD_set_self _ _ _ _ hc

theorem rlTimes_update_self_big (rl : RL) (c cur : Nat) (l : List Int)
    (hc : ¬ c < rl.keyRequestTimes.length) :
    rlTimes
      { rl with
        currentKeyIndex := cur,
        keyRequestTimes := rl.keyRequestTimes.set c l } c = rlTimes rl c := by
  show (rl.keyRequestTimes.set c l).getD c [] = _
  rw [set_of_le _ _ _ (le_of_not_lt hc)]
  rfl

theorem rlTimes_update_ne (rl : RL) (c cur i : Nat) (l : List Int) (h : i ≠ c) :
    rlTimes
      { rl with
        currentKeyIndex := cur,
        keyRequestTimes := rl.keyRequestTimes.set c l } i = rlTimes rl i :=
  getD_set_ne _ _ _ _ _ h

/-- Purging one key preserves the base-time window bounds of every key. -/
theorem wcount_update_le (rl : RL) (t0 : Int) (m : Nat)
    (hQ : ∀ i, wcount t0 (rlTimes rl i) ≤ m) (c cur : Nat) (now0 : Int) :
    ∀ i, wcount t0 (rlTimes
      { rl with
        currentKeyIndex := cur,
        keyRequestTimes := rl.keyRequestTimes.set c (purgeOld now0 (rlTimes rl c)) } i)
      ≤ m := by
  intro i
  by_cases hic : i = c
  · rw [hic]
    by_cases hil : c < rl.keyRequestTimes.length
    · rw [rlTimes_update_self rl c cur _ hil]
      exact le_trans (wcount_purge_le t0 now0 _) (hQ c)
    · rw [rlTimes_update_self_big rl c cur _ hil]
      exact hQ c
  · rw [rlTimes_update_ne rl c cur i _ hic]
    exact hQ i

/-- After a successful attempt-loop run, every key's in-window count at
the recorded instant is at most the ceiling. -/
theorem tryAttempts_some_spec (t0 : Int) :
    ∀ (times : List Int) (rl : RL) (k : Nat) (now : Int) (rl' : RL),
      (∀ t ∈ times, t0 ≤ t) →
      (∀ i, wcount t0 (rlTimes rl i) ≤ rl.maxRpm) →
      tryAttempts times rl = (some (k, now), rl') →
      ∀ i, wcount now (rlTimes rl' i) ≤ rl.maxRpm
  | [], rl, k, now, rl', _, _, h => by
    rw [tryAttempts] at h
    exact absurd (congrArg Prod.fst h) (by simp)
  | now0 :: rest, rl, k, now, rl', ht, hQ, h => by
    rw [tryAttempts_cons] at h
    by_cases hcond : (purgeOld now0 (rlTimes rl rl.currentKeyIndex)).length < rl.maxRpm
    · rw [if_pos hcond, List.set_set, Prod.mk.injEq] at h
      obtain ⟨h1, h2⟩ := h
      injection h1 with h1
      rw [Prod.mk.injEq] at h1
      obtain ⟨hk, hnw⟩ := h1
      rw [← h2, ← hnw]
      intro i
      by_cases hic : i = rl.currentKeyIndex
      · rw [hic]
        by_cases hil : rl.currentKeyIndex < rl.keyRequestTimes.length
        · rw [rlTimes_update_self rl rl.currentKeyIndex _ _ hil, wcount_append_self]
          omega
        · rw [rlTimes_update_self_big rl rl.currentKeyIndex _ _ hil]
          exact le_trans (wcount_antitone t0 now0
            (ht now0 (List.mem_cons_self ..)) _) (hQ rl.currentKeyIndex)
      · rw [rlTimes_update_ne rl rl.currentKeyIndex _ i _ hic]
        exact le_trans (wcount_antitone t0 now0
          (ht now0 (List.mem_cons_self ..)) _) (hQ i)
    · rw [if_neg hcond] at h
      exact tryAttempts_some_spec t0 rest
        { rl with
          currentKeyIndex := (rl.currentKeyIndex + 1) % rl.keyCount,
          keyRequestTimes := rl.keyRequestTimes.set rl.currentKeyIndex
            (purgeOld now0 (rlTimes rl rl.currentKeyIndex)) }
        k now rl' (fun t htm => ht t (List.mem_cons_of_mem _ htm))
        (wcount_update_le rl t0 rl.maxRpm hQ rl.currentKeyIndex _ now0) h

/-- After an exhausted attempt loop: base-time window bounds still hold,
every key reached by the rotating cursor holds exactly `max_rpm` purged
timestamps, unvisited keys are untouched, and the static fields are
preserved. -/
theorem tryAttempts_none_spec (t0 : Int) :
    ∀ (times : List Int) (rl : RL) (rl' : RL),
      (∀ t ∈ times, t0 ≤ t) →
      (∀ i, wcount t0 (rlTimes rl i) ≤ rl.maxRpm) →
      rl.currentKeyIndex < rl.keyCount →
      tryAttempts times rl = (none, rl') →
      (∀ i, wcount t0 (rlTimes rl' i) ≤ rl.maxRpm)
      ∧ (∀ i, (∃ j, j < times.length ∧ (rl.currentKeyIndex + j) % rl.keyCount = i) →
          rl.maxRpm ≤ (rlTimes rl' i).length ∧ (rlTimes rl' i).length ≤ rl.maxRpm)
      ∧ (∀ i, ¬ (∃ j, j < times.length ∧ (rl.currentKeyIndex + j) % rl.keyCount = i) →
          rlTimes rl' i = rlTimes rl i)
      ∧ rl'.apiKeys = rl.apiKeys
      ∧ rl'.maxRpm = rl.maxRpm
      ∧ rl'.keyRequestTimes.length = rl.keyRequestTimes.length
  | [], rl, rl', _, hQ, _, h => by
    rw [tryAttempts] at h
    have h2 : rl = rl' := congrArg Prod.snd h
    rw [← h2]
    refine ⟨hQ, ?_, fun _ _ => rfl, rfl, rfl, rfl⟩
    rintro i ⟨j, hj, _⟩
    exact absurd hj (by simp)
  | now0 :: rest, rl, rl', ht, hQ, hc, h => by
    rw [tryAttempts_cons] at h
    by_cases hcond : (purgeOld now0 (rlTimes rl rl.currentKeyIndex)).length < rl.maxRpm
    · rw [if_pos hcond] at h
      exact absurd (congrArg Prod.fst h) (by simp)
    · rw [if_neg hcond] at h
      obtain ⟨ihQ, ihcov, ihunch, ihapi, ihmax, ihlen⟩ :=
        tryAttempts_none_spec t0 rest
          { rl with
            currentKeyIndex := (rl.currentKeyIndex + 1) % rl.keyCount,
            keyRequestTimes := rl.keyRequestTimes.set rl.currentKeyIndex
              (purgeOld now0 (rlTimes rl rl.currentKeyIndex)) }
          rl' (fun t htm => ht t (List.mem_cons_of_mem _ htm))
          (wcount_update_le rl t0 rl.maxRpm hQ rl.currentKeyIndex _ now0)
          (Nat.mod_lt _ (Nat.zero_lt_of_lt hc)) h
      refine ⟨ihQ, ?_, ?_, ihapi, ihmax, ihlen.trans (List.length_set ..)⟩
      · rintro i ⟨j, hj, hij⟩
        simp only [List.length_cons] at hj
        by_cases hrest : ∃ j', j' < rest.length
            ∧ ((rl.currentKeyIndex + 1) % rl.keyCount + j') % rl.keyCount = i
        · exact ihcov i hrest
        · have hij0 : j = 0 := by
            by_contra hj0
            apply hrest
            refine ⟨j - 1, by omega, ?_⟩
            rw [mod_shift]
            have hjj : j - 1 + 1 = j := by omega
            rw [hjj]
            exact hij
          have hi : i = rl.currentKeyIndex := by
            rw [← hij, hij0, Nat.add_zero, Nat.mod_eq_of_lt hc]
          rw [ihunch i hrest, hi]
          by_cases hil : rl.currentKeyIndex < rl.keyRequestTimes.length
          · rw [rlTimes_update_self rl rl.currentKeyIndex _ _ hil]
            refine ⟨le_of_not_lt hcond, ?_⟩
            calc (purgeOld now0 (rlTimes rl rl.currentKeyIndex)).length
                = wcount now0 (rlTimes rl rl.currentKeyIndex) := rfl
              _ ≤ wcount t0 (rlTimes rl rl.currentKeyIndex) :=
                  wcount_antitone t0 now0 (ht now0 (List.mem_cons_self ..)) _
              _ ≤ rl.maxRpm := hQ _
          · rw [rlTimes_update_self_big rl rl.currentKeyIndex _ _ hil]
            have hnil : rlTimes rl rl.currentKeyIndex = [] := by
              show rl.keyRequestTimes.getD rl.currentKeyIndex [] = []
              exact List.getD_eq_default _ _ (le_of_not_lt hil)
            have hm0 : rl.maxRpm = 0 := by
              by_contra hmne
              exact hcond (by rw [hnil]; exact Nat.pos_of_ne_zero hmne)
            rw [hnil, hm0]
            simp
      · intro i hni
        have hic : i ≠ rl.currentKeyIndex := by
          intro he
          exact hni ⟨0, by simp, by
            rw [Nat.add_zero, Nat.mod_eq_of_lt hc]
            exact he.symm⟩
        have hnr : ¬ ∃ j', j' < rest.length
            ∧ ((rl.currentKeyIndex + 1) % rl.keyCount + j') % rl.keyCount = i := by
          rintro ⟨j', hj', hij'⟩
          refine hni ⟨j' + 1, by simp only [List.length_cons]; omega, ?_⟩
          rw [← mod_shift]
          exact hij'
        rw [ihunch i hnr]
        exact rlTimes_update_ne rl rl.currentKeyIndex _ i _ hic

theorem foldl_min_mem : ∀ (ts : List Int) (t : Int), ts.foldl min t ∈ t :: ts
  | [], t => List.mem_singleton.mpr rfl
  | s :: ss, t => by
    rw [List.foldl_cons]
    have hrec := foldl_min_mem ss (min t s)
    rcases List.mem_cons.mp hrec with he | hm
    · rcases min_choice t s with h1 | h1
      · rw [he, h1]
        exact List.mem_cons_self ..
      · rw [he, h1]
        exact List.mem_cons_of_mem _ (List.mem_cons_self ..)
    · exact List.mem_cons_of_mem _ (List.mem_cons_of_mem _ hm)

theorem listMin_mem (l : List Int) (h : l ≠ []) : listMin l ∈ l := by
  cases l with
  | nil => exact absurd rfl h
  | cons t ts => exact foldl_min_mem ts t

/-- Accumulator invariant of the best-key scan: a non-infinite best wait
always belongs to the tracked index and equals its wait formula. -/
def okBest (rl : RL) (now : Int) (acc : Nat × Option Int) : Prop :=
  ∀ bw, acc.2 = some bw →
    acc.1 < rl.keyCount ∧ rlTimes rl acc.1 ≠ []
      ∧ bw = 61 - (now - listMin (rlTimes rl acc.1))

theorem bestStep_ok (rl : RL) (now : Int) (acc : Nat × Option Int) (i : Nat)
    (hi : i < rl.keyCount) (hok : okBest rl now acc) :
    okBest rl now (bestStep rl now acc i) := by
  rcases hti : rlTimes rl i with _ | ⟨t, ts⟩
  · have hb : bestStep rl now acc i = acc := by
      unfold bestStep
      rw [hti]
    rw [hb]
    exact hok
  · rcases hacc : acc.2 with _ | ⟨bw0⟩
    · have hb : bestStep rl now acc i = (i, some (61 - (now - listMin (t :: ts)))) := by
        unfold bestStep
        rw [hti, hacc]
      rw [hb]
      intro bw hbw
      refine ⟨hi, by rw [hti]; exact List.cons_ne_nil _ _, ?_⟩
      rw [hti]
      exact (Option.some.inj hbw).symm
    · have hb : bestStep rl now acc i
          = if 61 - (now - listMin (t :: ts)) < bw0
            then (i, some (61 - (now - listMin (t :: ts)))) else acc := by
        unfold bestStep
        rw [hti, hacc]
      by_cases hlt : 61 - (now - listMin (t :: ts)) < bw0
      · rw [hb, if_pos hlt]
        intro bw hbw
        refine ⟨hi, by rw [hti]; exact List.cons_ne_nil _ _, ?_⟩
        rw [hti]
        exact (Option.some.inj hbw).symm
      · rw [hb, if_neg hlt]
        exact hok

theorem bestStep_ne_none (rl : RL) (now : Int) (acc : Nat × Option Int) (i : Nat)
    (h : rlTimes rl i ≠ [] ∨ acc.2 ≠ none) :
    (bestStep rl now acc i).2 ≠ none := by
  rcases hti : rlTimes rl i with _ | ⟨t, ts⟩
  · have hb : bestStep rl now acc i = acc := by
      unfold bestStep
      rw [hti]
    rw [hb]
    rcases h with h1 | h2
    · exact absurd hti h1
    · exact h2
  · rcases hacc : acc.2 with _ | ⟨bw0⟩
    · have hb : bestStep rl now acc i = (i, some (61 - (now - listMin (t :: ts)))) := by
        unfold bestStep
        rw [hti, hacc]
      rw [hb]
      simp
    · have hb : bestStep rl now acc i
          = if 61 - (now - listMin (t :: ts)) < bw0
            then (i, some (61 - (now - listMin (t :: ts)))) else acc := by
        unfold bestStep
        rw [hti, hacc]
      by_cases hlt : 61 - (now - listMin (t :: ts)) < bw0
      · rw [hb, if_pos hlt]
        simp
      · rw [hb, if_neg hlt]
        rw [hacc]
        simp

theorem findBest_fold (rl : RL) (now : Int) :
    ∀ (idxs : List Nat) (acc : Nat × Option Int),
      (∀ i ∈ idxs, i < rl.keyCount) →
      okBest rl now acc →
      okBest rl now (idxs.foldl (bestStep rl now) acc)
      ∧ ((∃ i ∈ idxs, rlTimes rl i ≠ []) ∨ acc.2 ≠ none →
          (idxs.foldl (bestStep rl now) acc).2 ≠ none)
  | [], acc, _, hok => by
    refine ⟨hok, fun h => ?_⟩
    rcases h with ⟨i, hi, _⟩ | h2
    · exact absurd hi (List.not_mem_nil i)
    · exact h2
  | i0 :: rest, acc, hidx, hok => by
    have hok' := bestStep_ok rl now acc i0 (hidx i0 (List.mem_cons_self ..)) hok
    have ih := findBest_fold rl now rest (bestStep rl now acc i0)
      (fun i hi => hidx i (List.mem_cons_of_mem _ hi)) hok'
    rw [List.foldl_cons]
    refine ⟨ih.1, fun h => ih.2 ?_⟩
    rcases h with ⟨i, hi, hne⟩ | hne2
    · rcases List.mem_cons.mp hi with he | hr
      · exact Or.inr (bestStep_ne_none rl now acc i0 (Or.inl (he ▸ hne)))
      · exact Or.inl ⟨i, hr, hne⟩
    · exact Or.inr (bestStep_ne_none rl now acc i0 (Or.inr hne2))

theorem findBestKey_spec (rl : RL) (now : Int) (hn : 0 < rl.keyCount)
    (hall : ∀ i, i < rl.keyCount → rlTimes rl i ≠ []) :
    (findBestKey rl now).1 < rl.keyCount
    ∧ rlTimes rl (findBestKey rl now).1 ≠ []
    ∧ (findBestKey rl now).2
        = some (61 - (now - listMin (rlTimes rl (findBestKey rl now).1))) := by
  have hfold := findBest_fold rl now (List.range rl.keyCount) (0, none)
    (fun i hi => List.mem_range.mp hi)
    (fun bw hbw => absurd hbw (by simp))
  have hsome : (findBestKey rl now).2 ≠ none :=
    hfold.2 (Or.inl ⟨0, List.mem_range.mpr hn, hall 0 hn⟩)
  rcases hbw : (findBestKey rl now).2 with _ | ⟨bw⟩
  · exact absurd hbw hsome
  · obtain ⟨h1, h2, h3⟩ := hfold.1 bw hbw
    exact ⟨h1, h2, congrArg some h3⟩

/-- The fallback wait-and-record path keeps every window at or below the
ceiling at the post-append instant. -/
theorem waitForBestKey_spec (rl : RL) (now2 tA t0 : Int) (m : Nat)
    (hn : 0 < rl.keyCount)
    (hm : 0 < m)
    (hlen : rl.keyRequestTimes.length = rl.keyCount)
    (hQ : ∀ i, wcount t0 (rlTimes rl i) ≤ m)
    (hlb : ∀ i, i < rl.keyCount → m ≤ (rlTimes rl i).length ∧ (rlTimes rl i).length ≤ m)
    (h0 : t0 ≤ now2)
    (hsleep : ∀ bw, (findBestKey rl now2).2 = some bw →
        (0 < bw → now2 + bw ≤ tA) ∧ (bw ≤ 0 → now2 ≤ tA)) :
    ∀ i, wcount tA (rlTimes (waitForBestKey rl now2 tA).2.2 i) ≤ m := by
  have hall : ∀ i, i < rl.keyCount → rlTimes rl i ≠ [] := by
    intro i hi he
    have hml := (hlb i hi).1
    rw [he] at hml
    simp at hml
    omega
  obtain ⟨hb1, hb2, hb3⟩ := findBestKey_spec rl now2 hn hall
  have hs := hsleep (61 - (now2 - listMin (rlTimes rl (findBestKey rl now2).1))) hb3
  have htA : listMin (rlTimes rl (findBestKey rl now2).1) + 61 ≤ tA := by
    by_cases hpos : (0 : Int) < 61 - (now2 - listMin (rlTimes rl (findBestKey rl now2).1))
    · have := hs.1 hpos
      omega
    · have := hs.2 (by omega)
      omega
  have htA2 : now2 ≤ tA := by
    by_cases hpos : (0 : Int) < 61 - (now2 - listMin (rlTimes rl (findBestKey rl now2).1))
    · have := hs.1 hpos
      omega
    · exact hs.2 (by omega)
  have hbl : (findBestKey rl now2).1 < rl.keyRequestTimes.length := by
    rw [hlen]
    exact hb1
  intro i
  by_cases hib : i = (findBestKey rl now2).1
  · rw [hib]
    have hset : rlTimes (waitForBestKey rl now2 tA).2.2 (findBestKey rl now2).1
        = rlTimes rl (findBestKey rl now2).1 ++ [tA] := by
      show (rl.keyRequestTimes.set _ _).getD _ [] = _
      exact getD_set_self _ _ _ _ hbl
    rw [hset]
    have hsplit : wcount tA (rlTimes rl (findBestKey rl now2).1 ++ [tA])
        = (purgeOld tA (rlTimes rl (findBestKey rl now2).1)).length + 1 := by
      unfold wcount purgeOld
      rw [List.filter_append]
      have hone : List.filter (fun t => decide (tA - 60 < t)) [tA] = [tA] := by
        rw [List.filter_cons]
        simp only [List.filter_nil]
        rw [if_pos (by rw [decide_eq_true_eq]; omega)]
      rw [hone, List.length_append, List.length_cons, List.length_nil]
    rw [hsplit]
    have hmem := listMin_mem (rlTimes rl (findBestKey rl now2).1) hb2
    have hfl : (purgeOld tA (rlTimes rl (findBestKey rl now2).1)).length
        < (rlTimes rl (findBestKey rl now2).1).length := by
      unfold purgeOld
      rw [List.length_filter_lt_length_iff_exists]
      refine ⟨listMin (rlTimes rl (findBestKey rl now2).1), hmem, ?_⟩
      rw [decide_eq_true_eq]
      omega
    have hup := (hlb _ hb1).2
    omega
  · have hset : rlTimes (waitForBestKey rl now2 tA).2.2 i = rlTimes rl i := by
      show (rl.keyRequestTimes.set _ _).getD i [] = _
      exact getD_set_ne _ _ _ _ _ hib
    rw [hset]
    exact le_trans (wcount_antitone t0 tA (by omega) _) (hQ i)

theorem exists_cov (n c i : Nat) (hn : 0 < n) (hc : c < n) (hi : i < n) :
    ∃ j, j < 2 * n ∧ (c + j) % n = i := by
  refine ⟨(i + n - c) % n, lt_of_lt_of_le (Nat.mod_lt _ hn) (by omega), ?_⟩
  have h1 : (c + (i + n - c) % n) % n = (c + (i + n - c)) % n := by
    rw [Nat.add_comm c ((i + n - c) % n), Nat.mod_add_mod, Nat.add_comm]
  rw [h1]
  have h2 : c + (i + n - c) = i + n := by omega
  rw [h2, Nat.add_mod_right, Nat.mod_eq_of_lt hi]

/-- C1: immediately after any successful `get_next_available_key` call —
through the round-robin loop or through the fallback that waits for the
soonest-expiring window — every credential's recorded timestamps within
the trailing 60 seconds number at most the per-minute ceiling, provided
the windows satisfied that bound at a base time `t0` before the call and
the sampled clocks are at or after `t0` (the fallback's post-sleep clock
`tA` is constrained exactly as `asyncio.sleep(best_wait_time)`
guarantees). -/
theorem C1_window_invariant (rl : RL) (times : List Int) (now2 tA t0 : Int) (i : Nat)
    (hn : 0 < rl.keyCount) (hm : 0 < rl.maxRpm)
    (hc : rl.currentKeyIndex < rl.keyCount)
    (hlen : rl.keyRequestTimes.length = rl.keyCount)
    (hQ : ∀ j, wcount t0 (rlTimes rl j) ≤ rl.maxRpm)
    (ht : ∀ t ∈ times, t0 ≤ t)
    (hT : times.length = 2 * rl.keyCount)
    (h0 : t0 ≤ now2)
    (hsleep : (tryAttempts times rl).1 = none →
      ∀ bw, (findBestKey (tryAttempts times rl).2 now2).2 = some bw →
        (0 < bw → now2 + bw ≤ tA) ∧ (bw ≤ 0 → now2 ≤ tA)) :
    wcount (get_next_available_key rl times now2 tA).2.1
      (rlTimes (get_next_available_key rl times now2 tA).2.2 i) ≤ rl.maxRpm := by
  rcases hres : tryAttempts times rl with ⟨o, rlL⟩
  cases o with
  | some p =>
    obtain ⟨k, now⟩ := p
    have hg : get_next_available_key rl times now2 tA = (k, now, rlL) := by
      simp only [get_next_available_key, hres]
    rw [hg]
    exact tryAttempts_some_spec t0 times rl k now rlL ht hQ hres i
  | none =>
    have hg : get_next_available_key rl times now2 tA = waitForBestKey rlL now2 tA := by
      simp only [get_next_available_key, hres]
    rw [hg]
    obtain ⟨hQL, hcov, _, hapi, _, hlenp⟩ :=
      tryAttempts_none_spec t0 times rl rlL ht hQ hc hres
    have hkc : rlL.keyCount = rl.keyCount := by
      show rlL.apiKeys.length = rl.apiKeys.length
      rw [hapi]
    have hnL : 0 < rlL.keyCount := by
      rw [hkc]
      exact hn
    have hlenL : rlL.keyRequestTimes.length = rlL.keyCount := by
      rw [hlenp, hlen, hkc]
    have hlbL : ∀ j, j < rlL.keyCount →
        rl.maxRpm ≤ (rlTimes rlL j).length ∧ (rlTimes rlL j).length ≤ rl.maxRpm := by
      intro j hj
      apply hcov j
      obtain ⟨jj, hjj, hjje⟩ :=
        exists_cov rl.keyCount rl.currentKeyIndex j hn hc (by rw [← hkc]; exact hj)
      exact ⟨jj, by omega, hjje⟩
    have hsleepL : ∀ bw, (findBestKey rlL now2).2 = some bw →
        (0 < bw → now2 + bw ≤ tA) ∧ (bw ≤ 0 → now2 ≤ tA) := by
      intro bw hbw
      apply hsleep (by rw [hres]) bw
      rw [hres]
      exact hbw
    exact waitForBestKey_spec rlL now2 tA t0 rl.maxRpm hnL hm hlenL hQL hlbL h0 hsleepL i

/-- C1 witness: a fresh one-key limiter with ceiling 1; the call succeeds
on its first attempt and the key's window holds one timestamp. -/
theorem C1_window_invariant_witness :
    wcount (get_next_available_key ⟨["gsk_k1aaaaaa"], 1, [[]], 0⟩ [0, 0] 0 0).2.1
      (rlTimes (get_next_available_key ⟨["gsk_k1aaaaaa"], 1, [[]], 0⟩ [0, 0] 0 0).2.2 0)
      ≤ 1 :=
  C1_window_invariant ⟨["gsk_k1aaaaaa"], 1, [[]], 0⟩ [0, 0] 0 0 0 0
    (by decide) (by decide) (by decide) (by decide)
    (fun j => by
      show wcount 0 ([[]].getD j []) ≤ 1
      match j with
      | 0 => decide
      | jj + 1 => show wcount 0 [] ≤ 1; decide)
    (by decide) (by decide) (by decide)
    (fun h => absurd h (by decide))
